import Mathlib

set_option maxRecDepth 8192

/-!
Verification of the VoidDB storage layer (src/compiler.rs): fixed-width row
codec, paginated table, insert/select execution. Machine integers are modelled
as `Nat` with explicit bounds; byte buffers as `List Nat`; Rust `&str` values,
where UTF-8 character boundaries matter, as lists of characters given by their
UTF-8 byte sequences.
-/

namespace VoidDB

/-- `COLUMN_USERNAME_SIZE` from compiler.rs. -/
def COLUMN_USERNAME_SIZE : Nat := 32

/-- `COLUMN_EMAIL_SIZE` from compiler.rs. -/
def COLUMN_EMAIL_SIZE : Nat := 255

/-- `PAGE_SIZE` from compiler.rs. -/
def PAGE_SIZE : Nat := 4096

/-- `TABLE_MAX_PAGES` from compiler.rs. -/
def TABLE_MAX_PAGES : Nat := 100

/-- `ROW_SIZE` from compiler.rs. -/
def ROW_SIZE : Nat := 291

/-- `ROWS_PER_PAGE = PAGE_SIZE / ROW_SIZE` from compiler.rs (integer division). -/
def ROWS_PER_PAGE : Nat := PAGE_SIZE / ROW_SIZE

/-- `TABLE_MAX_ROWS = ROWS_PER_PAGE * TABLE_MAX_PAGES` from compiler.rs. -/
def TABLE_MAX_ROWS : Nat := ROWS_PER_PAGE * TABLE_MAX_PAGES

/-- `ExecuteResult` from compiler.rs. -/
inductive ExecuteResult where
  | Success : ExecuteResult
  | TableFull : ExecuteResult
deriving DecidableEq, Repr

/-- `StatementType` from compiler.rs. -/
inductive StatementType where
  | Insert : StatementType
  | Select : StatementType
deriving DecidableEq, Repr

/-- `Row` from compiler.rs: `id: u32`, `username: [u8; 32]`, `email: [u8; 255]`.
The arrays are modelled as byte lists; a value corresponding to a Rust `Row`
has `username.length = 32`, `email.length = 255` and `id < 2^32` (`wfRow`). -/
structure Row where
  id : Nat
  username : List Nat
  email : List Nat
deriving DecidableEq, Repr

/-- The constraints every Rust `Row` value satisfies by construction of its
types (`u32` and fixed-size byte arrays). -/
def wfRow (r : Row) : Prop :=
  r.id < 4294967296 ∧
  r.username.length = COLUMN_USERNAME_SIZE ∧
  r.email.length = COLUMN_EMAIL_SIZE

instance (r : Row) : Decidable (wfRow r) := by
  unfold wfRow; infer_instance

/-- The copy loop of `Row::new`: write the first `size` source bytes into a
zero-initialised buffer of length `size` (truncate, zero-pad). -/
def fillBytes (size : Nat) (src : List Nat) : List Nat :=
  src.take size ++ List.replicate (size - src.length) 0

/-- `Row::new` from compiler.rs at the byte level: truncate `username` to 32
bytes and `email` to 255 bytes, zero-padding shorter inputs. This is the
behaviour of the Rust code whenever its `&str` slicing does not panic; see
`Row.newStr` for the character-boundary-aware version. -/
def Row.new (id : Nat) (username email : List Nat) : Row :=
  { id := id
    username := fillBytes COLUMN_USERNAME_SIZE username
    email := fillBytes COLUMN_EMAIL_SIZE email }

/-- `u32::to_le_bytes`: the four little-endian bytes of `x : u32`. -/
def u32_le_bytes (x : Nat) : List Nat :=
  [x % 256, x / 256 % 256, x / 65536 % 256, x / 16777216 % 256]

/-- `u32::from_le_bytes` applied to the first four bytes of a buffer. -/
def u32_from_le_bytes (bs : List Nat) : Nat :=
  bs.getD 0 0 + 256 * bs.getD 1 0 + 65536 * bs.getD 2 0 + 16777216 * bs.getD 3 0

/-- `Row::serialize` from compiler.rs: 4 little-endian id bytes, then the
username array, then the email array. -/
def Row.serialize (r : Row) : List Nat :=
  u32_le_bytes r.id ++ r.username ++ r.email

/-- `Row::deserialize` from compiler.rs: id from bytes 0..4 (little-endian),
username from bytes 4..36, email from bytes 36..291. -/
def Row.deserialize (data : List Nat) : Row :=
  { id := u32_from_le_bytes (data.take 4)
    username := (data.drop 4).take COLUMN_USERNAME_SIZE
    email := (data.drop 36).take COLUMN_EMAIL_SIZE }

/-! Rust `&str` model for `Row::new`

`Row::new` receives `&str` arguments and slices them at a byte index
(`&username[0..usernamelen]`), which in Rust panics when the index is not a
UTF-8 character boundary. A string is modelled as the list of its characters,
each character given by its (non-empty) UTF-8 byte sequence. -/

/-- The byte sequence of a string given as a list of characters. -/
def strBytes (s : List (List Nat)) : List Nat := s.flatten

/-- `str::len`: the byte length of the string. -/
def strByteLen (s : List (List Nat)) : Nat := (strBytes s).length

/-- `str::is_char_boundary`: `n` is 0, the total length, or the start of a
character. -/
def isCharBoundary : List (List Nat) → Nat → Bool
  | _, 0 => true
  | [], _ + 1 => false
  | c :: rest, n + 1 =>
    if c.length ≤ n + 1 then isCharBoundary rest (n + 1 - c.length) else false

/-- Rust `&s[0..n]` on a `&str`: the first `n` bytes when `n` is a character
boundary, `none` (a panic) otherwise. -/
def strSlice (s : List (List Nat)) (n : Nat) : Option (List Nat) :=
  if isCharBoundary s n then some ((strBytes s).take n) else none

/-- `Row::new` from compiler.rs with its `&str` arguments modelled faithfully:
`usernamelen` is `min (len username) 32`, the string is sliced at that byte
index (panicking — `none` — when it is not a character boundary), and the bytes
are copied into the zero-initialised arrays; likewise for `email` at 255. -/
def Row.newStr (id : Nat) (username email : List (List Nat)) : Option Row :=
  let usernamelen :=
    if COLUMN_USERNAME_SIZE < strByteLen username then COLUMN_USERNAME_SIZE
    else strByteLen username
  match strSlice username usernamelen with
  | none => none
  | some ubytes =>
    let emaillen :=
      if COLUMN_EMAIL_SIZE < strByteLen email then COLUMN_EMAIL_SIZE
      else strByteLen email
    match strSlice email emaillen with
    | none => none
    | some ebytes =>
      some { id := id
             username := fillBytes COLUMN_USERNAME_SIZE ubytes
             email := fillBytes COLUMN_EMAIL_SIZE ebytes }

/-! Codec lemmas -/

theorem fillBytes_length (size : Nat) (src : List Nat) :
    (fillBytes size src).length = size := by
  simp [fillBytes]
  omega

theorem u32_le_bytes_roundtrip (x : Nat) (h : x < 4294967296) :
    u32_from_le_bytes (u32_le_bytes x) = x := by
  simp [u32_le_bytes, u32_from_le_bytes]
  omega

/-- Deserialising the serialisation of any well-formed row gives it back. -/
theorem deserialize_serialize (r : Row) (h : wfRow r) :
    Row.deserialize r.serialize = r := by
  obtain ⟨hid, hu, he⟩ := h
  obtain ⟨id, u, e⟩ := r
  have hid' : id < 4294967296 := hid
  simp only [COLUMN_USERNAME_SIZE, COLUMN_EMAIL_SIZE] at hu he
  simp only [Row.serialize, Row.deserialize, u32_le_bytes,
    COLUMN_USERNAME_SIZE, COLUMN_EMAIL_SIZE]
  simp only [List.cons_append, List.nil_append]
  refine Row.mk.injEq .. ▸ ⟨?_, ?_, ?_⟩
  · show u32_from_le_bytes _ = id
    simp only [List.take_succ_cons, List.take_zero, u32_from_le_bytes,
      List.getD_cons_zero, List.getD_cons_succ]
    omega
  · show ((u ++ e).take 32) = u
    rw [List.take_append_of_le_length (by omega), List.take_of_length_le (by omega)]
  · show (((u ++ e).drop 32)).take 255 = e
    rw [List.drop_append_of_le_length (by omega)]
    have hnil : u.drop 32 = [] := List.drop_eq_nil_of_le (by omega)
    rw [hnil, List.nil_append, List.take_of_length_le (by omega)]

/-! Table, page store and statement execution -/

/-- `Table` from compiler.rs: a row counter and `TABLE_MAX_PAGES` lazily
allocated page buffers. -/
structure Table where
  num_rows : Nat
  pages : List (Option (List Nat))
deriving DecidableEq, Repr

/-- `Table::new` from compiler.rs: zero rows, all pages unallocated. -/
def Table.new : Table :=
  { num_rows := 0, pages := List.replicate TABLE_MAX_PAGES none }

/-- `self.pages[page_num]` (in-bounds array indexing in the Rust code). -/
def pageAt (t : Table) (page_num : Nat) : Option (List Nat) :=
  t.pages.getD page_num none

/-- The page index computed in `Table::row_slot`: `row_num / ROWS_PER_PAGE`. -/
def rowPageNum (row_num : Nat) : Nat := row_num / ROWS_PER_PAGE

/-- The byte offset computed in `Table::row_slot`:
`row_num % ROWS_PER_PAGE * ROW_SIZE`. -/
def rowPageOffset (row_num : Nat) : Nat := row_num % ROWS_PER_PAGE * ROW_SIZE

/-- The allocation step of `Table::row_slot`: if the page is `None`, replace it
with a zero-filled `PAGE_SIZE` buffer. -/
def Table.allocPage (t : Table) (page_num : Nat) : Table :=
  if (pageAt t page_num).isNone then
    { t with pages := t.pages.set page_num (some (List.replicate PAGE_SIZE 0)) }
  else t

/-- `Table::row_slot` from compiler.rs, read view: allocate the page on first
touch and return the updated table together with the `ROW_SIZE` bytes at
`[offset, offset + ROW_SIZE)` of the page. -/
def Table.row_slot (t : Table) (row_num : Nat) : Table × List Nat :=
  let t' := t.allocPage (rowPageNum row_num)
  (t', (((pageAt t' (rowPageNum row_num)).getD []).drop (rowPageOffset row_num)).take ROW_SIZE)

/-- Overwrite `[off, off + data.length)` of a byte buffer. -/
def writeRange (page : List Nat) (off : Nat) (data : List Nat) : List Nat :=
  page.take off ++ data ++ page.drop (off + data.length)

/-- `Table::row_slot` followed by `slot.copy_from_slice(data)` (the write
performed by `execute_insert`). -/
def Table.write_slot (t : Table) (row_num : Nat) (data : List Nat) : Table :=
  let t' := t.allocPage (rowPageNum row_num)
  { t' with
    pages := t'.pages.set (rowPageNum row_num)
      (some (writeRange ((pageAt t' (rowPageNum row_num)).getD [])
        (rowPageOffset row_num) data)) }

/-- The bytes of row slot `i` as stored in the table (without allocating). -/
def slotBytes (t : Table) (i : Nat) : List Nat :=
  (((pageAt t (rowPageNum i)).getD []).drop (rowPageOffset i)).take ROW_SIZE

/-- `Statement` from compiler.rs. -/
structure Statement where
  typ : StatementType
  row_to_insert : Option Row

/-- `execute_insert` from compiler.rs: reject when the table is full, reject
when the statement carries no row, otherwise serialize the row into the slot
for index `num_rows` and increment `num_rows`. -/
def execute_insert (statement : Statement) (table : Table) : ExecuteResult × Table :=
  if TABLE_MAX_ROWS ≤ table.num_rows then (ExecuteResult.TableFull, table)
  else
    match statement.row_to_insert with
    | some row =>
      let t' := table.write_slot table.num_rows row.serialize
      (ExecuteResult.Success, { t' with num_rows := table.num_rows + 1 })
    | none => (ExecuteResult.TableFull, table)

/-- The loop of `execute_select`: visit row slots `0, 1, ..., n - 1` in order,
deserialising (and printing) each; the table threads through because
`row_slot` may allocate. -/
def selectRows (t : Table) : Nat → Table × List Row
  | 0 => (t, [])
  | n + 1 =>
    let p := selectRows t n
    let q := p.1.row_slot n
    (q.1, p.2 ++ [Row.deserialize q.2])

/-- `execute_select` from compiler.rs: scan rows `0..num_rows`, returning
`Success`, the (possibly page-allocated) table, and the printed rows in order. -/
def execute_select (_statement : Statement) (table : Table) :
    ExecuteResult × Table × List Row :=
  let p := selectRows table table.num_rows
  (ExecuteResult.Success, p.1, p.2)

/-- `execute_statement` from compiler.rs; the third component records the rows
printed by a select (empty for an insert). -/
def execute_statement (statement : Statement) (table : Table) :
    ExecuteResult × Table × List Row :=
  match statement.typ with
  | StatementType.Insert =>
    let p := execute_insert statement table
    (p.1, p.2, [])
  | StatementType.Select => execute_select statement table

/-- Run a sequence of insert statements (one per row), collecting results. -/
def insertAll (rows : List Row) (t : Table) : List ExecuteResult × Table :=
  match rows with
  | [] => ([], t)
  | r :: rest =>
    let p := execute_insert { typ := StatementType.Insert, row_to_insert := some r } t
    let q := insertAll rest p.2
    (p.1 :: q.1, q.2)

/-- Table states reachable from `Table::new` by executing statements. -/
inductive Reachable : Table → Prop
  | init : Reachable Table.new
  | step (statement : Statement) {t : Table} (h : Reachable t) :
      Reachable (execute_statement statement t).2.1

/-! List-level helper lemmas -/

theorem getD_set_self {α : Type} (l : List α) (i : Nat) (a d : α)
    (h : i < l.length) : (l.set i a).getD i d = a := by
  simp [List.getD_eq_getElem?_getD, List.getElem?_set_self h]

theorem getD_set_ne {α : Type} (l : List α) {i j : Nat} (h : i ≠ j) (a d : α) :
    (l.set i a).getD j d = l.getD j d := by
  simp [List.getD_eq_getElem?_getD, List.getElem?_set_ne h]

theorem writeRange_length (page data : List Nat) (off : Nat)
    (h : off + data.length ≤ page.length) :
    (writeRange page off data).length = page.length := by
  simp [writeRange]
  omega

theorem take_drop_writeRange_self (page data : List Nat) (off : Nat)
    (h : off + data.length ≤ page.length) :
    ((writeRange page off data).drop off).take data.length = data := by
  unfold writeRange
  rw [List.append_assoc,
    List.drop_append_of_le_length (by simp only [List.length_take]; omega),
    List.drop_eq_nil_of_le (by simp only [List.length_take]; omega),
    List.nil_append, List.take_append_of_le_length (le_refl _), List.take_length]

theorem take_drop_writeRange_left (page data : List Nat) (off off2 len2 : Nat)
    (hlt : off2 + len2 ≤ off) (hoff : off ≤ page.length) :
    ((writeRange page off data).drop off2).take len2 = (page.drop off2).take len2 := by
  unfold writeRange
  rw [List.drop_append_of_le_length
      (by simp only [List.length_append, List.length_take]; omega),
    List.take_append_of_le_length
      (by simp only [List.length_drop, List.length_append, List.length_take]; omega),
    List.drop_append_of_le_length (by simp only [List.length_take]; omega),
    List.take_append_of_le_length
      (by simp only [List.length_drop, List.length_take]; omega),
    List.drop_take, List.take_take]
  congr 1
  omega

theorem take_drop_writeRange_right (page data : List Nat) (off off2 len2 : Nat)
    (hge : off + data.length ≤ off2) (hoff : off ≤ page.length) :
    ((writeRange page off data).drop off2).take len2 = (page.drop off2).take len2 := by
  unfold writeRange
  have hlen : (List.take off page ++ data).length = off + data.length := by
    simp only [List.length_append, List.length_take]
    omega
  rw [List.drop_append_eq_append_drop, hlen,
    List.drop_eq_nil_of_le (by rw [hlen]; omega), List.nil_append, List.drop_drop]
  congr 2
  omega

/-! Slot addressing lemmas -/

theorem ROWS_PER_PAGE_eq : ROWS_PER_PAGE = 14 := rfl

theorem rowPageOffset_add_le (n : Nat) : rowPageOffset n + ROW_SIZE ≤ PAGE_SIZE := by
  simp only [rowPageOffset, ROWS_PER_PAGE_eq, ROW_SIZE, PAGE_SIZE]
  omega

theorem rowPageNum_lt (n : Nat) (h : n < TABLE_MAX_ROWS) :
    rowPageNum n < TABLE_MAX_PAGES := by
  simp only [rowPageNum, ROWS_PER_PAGE_eq, TABLE_MAX_PAGES] at *
  simp only [TABLE_MAX_ROWS, ROWS_PER_PAGE_eq, TABLE_MAX_PAGES] at h
  omega

theorem slot_disjoint (i n : Nat) (hne : i ≠ n) (hp : rowPageNum i = rowPageNum n) :
    rowPageOffset i + ROW_SIZE ≤ rowPageOffset n ∨
    rowPageOffset n + ROW_SIZE ≤ rowPageOffset i := by
  simp only [rowPageNum, rowPageOffset, ROWS_PER_PAGE_eq, ROW_SIZE] at *
  omega

/-! Page allocation lemmas -/

theorem allocPage_num_rows (t : Table) (p : Nat) :
    (t.allocPage p).num_rows = t.num_rows := by
  unfold Table.allocPage
  split <;> rfl

theorem allocPage_pages_length (t : Table) (p : Nat) :
    (t.allocPage p).pages.length = t.pages.length := by
  unfold Table.allocPage
  split <;> simp

theorem allocPage_of_isSome (t : Table) (p : Nat) (h : (pageAt t p).isSome) :
    t.allocPage p = t := by
  unfold Table.allocPage
  rw [if_neg]
  simp only [Option.isNone_iff_eq_none]
  intro hnone
  rw [hnone] at h
  simp at h

theorem pageAt_allocPage_ne (t : Table) {p q : Nat} (h : p ≠ q) :
    pageAt (t.allocPage p) q = pageAt t q := by
  unfold Table.allocPage
  split
  · exact getD_set_ne _ h _ _
  · rfl

theorem isSome_pageAt_allocPage (t : Table) (p : Nat) (h : p < t.pages.length) :
    (pageAt (t.allocPage p) p).isSome := by
  unfold Table.allocPage
  split
  · rw [show pageAt { t with pages := t.pages.set p (some (List.replicate PAGE_SIZE 0)) } p
        = (t.pages.set p (some (List.replicate PAGE_SIZE 0))).getD p none from rfl]
    rw [getD_set_self _ _ _ _ (by simpa using h)]
    rfl
  · next hcond =>
    simp only [Option.isNone_iff_eq_none] at hcond
    exact Option.isSome_iff_exists.mpr ⟨_, Option.eq_some_of_isSome (by
      cases hv : pageAt t p
      · exact absurd hv hcond
      · simp [hv])⟩

theorem length_pageAt_allocPage (t : Table) (p : Nat) (pg : List Nat)
    (hWF : ∀ q qg, pageAt t q = some qg → qg.length = PAGE_SIZE)
    (h : p < t.pages.length)
    (hpg : pageAt (t.allocPage p) p = some pg) : pg.length = PAGE_SIZE := by
  unfold Table.allocPage at hpg
  split at hpg
  · rw [show pageAt { t with pages := t.pages.set p (some (List.replicate PAGE_SIZE 0)) } p
        = (t.pages.set p (some (List.replicate PAGE_SIZE 0))).getD p none from rfl,
      getD_set_self _ _ _ _ (by simpa using h)] at hpg
    cases hpg
    simp
  · exact hWF p pg hpg

/-! Write-slot lemmas -/

theorem write_slot_num_rows (t : Table) (n : Nat) (data : List Nat) :
    (t.write_slot n data).num_rows = t.num_rows := by
  unfold Table.write_slot
  simp [allocPage_num_rows]

theorem write_slot_pages_length (t : Table) (n : Nat) (data : List Nat) :
    (t.write_slot n data).pages.length = t.pages.length := by
  unfold Table.write_slot
  simp [allocPage_pages_length]

theorem pageAt_write_slot_ne (t : Table) (n : Nat) (data : List Nat) {q : Nat}
    (h : rowPageNum n ≠ q) : pageAt (t.write_slot n data) q = pageAt t q := by
  unfold Table.write_slot
  have h1 : ∀ (t2 : Table) (v : Option (List Nat)),
      pageAt { t2 with pages := t2.pages.set (rowPageNum n) v } q = pageAt t2 q :=
    fun t2 v => getD_set_ne _ h _ _
  rw [h1, pageAt_allocPage_ne t h]

theorem pageAt_write_slot_self (t : Table) (n : Nat) (data : List Nat)
    (hlen : rowPageNum n < t.pages.length) :
    pageAt (t.write_slot n data) (rowPageNum n) =
      some (writeRange ((pageAt (t.allocPage (rowPageNum n)) (rowPageNum n)).getD [])
        (rowPageOffset n) data) := by
  unfold Table.write_slot
  exact getD_set_self _ _ _ _ (by rw [allocPage_pages_length]; exact hlen)

theorem slotBytes_write_slot_self (t : Table) (n : Nat) (data : List Nat)
    (hWF : ∀ q pg, pageAt t q = some pg → pg.length = PAGE_SIZE)
    (hlen : rowPageNum n < t.pages.length)
    (hdata : data.length = ROW_SIZE) :
    slotBytes (t.write_slot n data) n = data := by
  unfold slotBytes
  rw [pageAt_write_slot_self t n data hlen]
  obtain ⟨pg, hpg⟩ := Option.isSome_iff_exists.mp (isSome_pageAt_allocPage t _ hlen)
  have hpglen : pg.length = PAGE_SIZE := length_pageAt_allocPage t _ pg hWF hlen hpg
  rw [hpg]
  simp only [Option.getD_some]
  rw [← hdata]
  exact take_drop_writeRange_self pg data _ (by rw [hpglen, hdata]; exact rowPageOffset_add_le n)

theorem slotBytes_write_slot_ne (t : Table) {i n : Nat} (data : List Nat)
    (hne : i ≠ n)
    (hWF : ∀ q pg, pageAt t q = some pg → pg.length = PAGE_SIZE)
    (hlen : rowPageNum n < t.pages.length)
    (hdata : data.length = ROW_SIZE)
    (hsome : rowPageNum i = rowPageNum n → (pageAt t (rowPageNum i)).isSome) :
    slotBytes (t.write_slot n data) i = slotBytes t i := by
  by_cases hpq : rowPageNum n = rowPageNum i
  · have hs : (pageAt t (rowPageNum i)).isSome := hsome hpq.symm
    have halloc : t.allocPage (rowPageNum n) = t := by
      rw [hpq]
      exact allocPage_of_isSome t _ hs
    obtain ⟨pg, hpg⟩ := Option.isSome_iff_exists.mp hs
    have hpglen : pg.length = PAGE_SIZE := hWF _ pg hpg
    unfold slotBytes
    rw [← hpq, pageAt_write_slot_self t n data hlen, halloc, hpq, hpg]
    simp only [Option.getD_some]
    have hoff : rowPageOffset n ≤ pg.length := by
      rw [hpglen]
      have := rowPageOffset_add_le n
      omega
    rcases slot_disjoint i n hne hpq.symm with hd | hd
    · exact take_drop_writeRange_left pg data _ _ _ (by omega) hoff
    · exact take_drop_writeRange_right pg data _ _ _ (by omega) hoff
  · unfold slotBytes
    rw [pageAt_write_slot_ne t n data hpq]

/-! Execution lemmas and invariants -/

theorem execute_insert_full (st : Statement) (t : Table)
    (h : TABLE_MAX_ROWS ≤ t.num_rows) :
    execute_insert st t = (ExecuteResult.TableFull, t) := by
  unfold execute_insert
  rw [if_pos h]

theorem execute_insert_none (st : Statement) (t : Table)
    (hst : st.row_to_insert = none) :
    execute_insert st t = (ExecuteResult.TableFull, t) := by
  unfold execute_insert
  rw [hst]
  split <;> rfl

theorem execute_insert_some (st : Statement) (t : Table) (r : Row)
    (hst : st.row_to_insert = some r) (h : t.num_rows < TABLE_MAX_ROWS) :
    execute_insert st t =
      (ExecuteResult.Success,
        { t.write_slot t.num_rows r.serialize with num_rows := t.num_rows + 1 }) := by
  unfold execute_insert
  rw [if_neg (by omega), hst]

theorem serialize_length (r : Row) (h : wfRow r) : r.serialize.length = ROW_SIZE := by
  obtain ⟨-, hu, he⟩ := h
  simp [Row.serialize, u32_le_bytes, hu, he, COLUMN_USERNAME_SIZE, COLUMN_EMAIL_SIZE,
    ROW_SIZE]

theorem pageAt_new (p : Nat) : pageAt Table.new p = none := by
  simp only [pageAt, Table.new, List.getD_eq_getElem?_getD, List.getElem?_replicate]
  split <;> rfl

/-- The storage invariant tying a table state to the list of rows inserted so
far: row count, page sizes, allocation of all touched pages, and the byte
content of every occupied slot. -/
def represents (t : Table) (rows : List Row) : Prop :=
  t.num_rows = rows.length ∧
  t.pages.length = TABLE_MAX_PAGES ∧
  (∀ p pg, pageAt t p = some pg → pg.length = PAGE_SIZE) ∧
  (∀ i, i < t.num_rows → (pageAt t (rowPageNum i)).isSome) ∧
  (∀ (i : Nat) (h : i < rows.length), slotBytes t i = rows[i].serialize)

theorem represents_new : represents Table.new [] := by
  refine ⟨rfl, by simp [Table.new], ?_, ?_, ?_⟩
  · intro p pg hpg
    rw [pageAt_new] at hpg
    cases hpg
  · intro i hi
    exact absurd hi (by simp [Table.new])
  · intro i hi
    exact absurd hi (by simp)

theorem represents_insert (t : Table) (rows : List Row) (r : Row)
    (hrep : represents t rows) (hfull : rows.length < TABLE_MAX_ROWS) (hwf : wfRow r) :
    represents { t.write_slot t.num_rows r.serialize with num_rows := t.num_rows + 1 }
      (rows ++ [r]) := by
  obtain ⟨hnum, hpag, hWF, halloc, hslot⟩ := hrep
  have hn : t.num_rows < TABLE_MAX_ROWS := by omega
  have hplt : rowPageNum t.num_rows < t.pages.length := by
    rw [hpag]
    exact rowPageNum_lt _ hn
  have hdlen : r.serialize.length = ROW_SIZE := serialize_length r hwf
  refine ⟨by simp [hnum], ?_, ?_, ?_, ?_⟩
  · show (t.write_slot t.num_rows r.serialize).pages.length = TABLE_MAX_PAGES
    rw [write_slot_pages_length, hpag]
  · intro p pg hpg
    by_cases hp : p = rowPageNum t.num_rows
    · subst hp
      rw [show pageAt { t.write_slot t.num_rows r.serialize with num_rows := t.num_rows + 1 }
            (rowPageNum t.num_rows)
          = pageAt (t.write_slot t.num_rows r.serialize) (rowPageNum t.num_rows) from rfl,
        pageAt_write_slot_self t _ _ hplt] at hpg
      obtain ⟨pg0, hpg0⟩ :=
        Option.isSome_iff_exists.mp (isSome_pageAt_allocPage t _ hplt)
      rw [hpg0] at hpg
      simp only [Option.getD_some, Option.some.injEq] at hpg
      subst hpg
      rw [writeRange_length]
      · exact length_pageAt_allocPage t _ pg0 hWF hplt hpg0
      · rw [length_pageAt_allocPage t _ pg0 hWF hplt hpg0, hdlen]
        exact rowPageOffset_add_le t.num_rows
    · rw [show pageAt { t.write_slot t.num_rows r.serialize with num_rows := t.num_rows + 1 } p
          = pageAt (t.write_slot t.num_rows r.serialize) p from rfl,
        pageAt_write_slot_ne t _ _ (fun he => hp he.symm)] at hpg
      exact hWF p pg hpg
  · intro i hi
    show (pageAt (t.write_slot t.num_rows r.serialize) (rowPageNum i)).isSome
    by_cases hip : rowPageNum i = rowPageNum t.num_rows
    · rw [hip, pageAt_write_slot_self t _ _ hplt]
      rfl
    · rw [pageAt_write_slot_ne t _ _ (fun he => hip he.symm)]
      have hi' : i < t.num_rows + 1 := hi
      have hlt : i < t.num_rows := by
        rcases Nat.lt_or_ge i t.num_rows with hlt | hge
        · exact hlt
        · exfalso
          exact hip (by rw [show i = t.num_rows by omega])
      exact halloc i hlt
  · intro i hi
    show slotBytes (t.write_slot t.num_rows r.serialize) i = (rows ++ [r])[i].serialize
    rcases Nat.lt_or_ge i rows.length with hlt | hge
    · rw [slotBytes_write_slot_ne t _ (by omega) hWF hplt hdlen
          (fun _ => halloc i (by omega)),
        hslot i hlt, List.getElem_append_left hlt]
    · have hieq : i = rows.length := by
        simp only [List.length_append, List.length_cons, List.length_nil] at hi
        omega
      subst hieq
      have h1 : slotBytes (t.write_slot t.num_rows r.serialize) rows.length = r.serialize := by
        rw [← hnum]
        exact slotBytes_write_slot_self t _ _ hWF hplt hdlen
      rw [h1]
      congr 1
      rw [List.getElem_concat_length]
      rfl

theorem insertAll_represents (rows : List Row) (pre : List Row) (t : Table)
    (hrep : represents t pre) (hwf : ∀ r ∈ rows, wfRow r)
    (hcap : pre.length + rows.length ≤ TABLE_MAX_ROWS) :
    (∀ res ∈ (insertAll rows t).1, res = ExecuteResult.Success) ∧
    represents (insertAll rows t).2 (pre ++ rows) := by
  induction rows generalizing pre t with
  | nil =>
    simp only [insertAll, List.append_nil]
    exact ⟨fun res hres => absurd hres (List.not_mem_nil res), hrep⟩
  | cons r rest ih =>
    have hn : t.num_rows < TABLE_MAX_ROWS := by
      rw [hrep.1]
      simp only [List.length_cons] at hcap
      omega
    have step := execute_insert_some
      { typ := StatementType.Insert, row_to_insert := some r } t r rfl hn
    have hrep' := represents_insert t pre r hrep (by
        simp only [List.length_cons] at hcap
        omega) (hwf r (by simp))
    rw [hrep.1] at step hrep'
    simp only [insertAll, step]
    obtain ⟨ih1, ih2⟩ := ih (pre ++ [r]) _ hrep'
      (fun q hq => hwf q (by simp [hq]))
      (by simp only [List.length_append, List.length_cons, List.length_nil] at hcap ⊢; omega)
    refine ⟨?_, ?_⟩
    · intro res hres
      simp only [List.mem_cons] at hres
      rcases hres with h | h
      · exact h
      · exact ih1 res h
    · rw [List.append_cons]
      exact ih2

theorem execute_insert_num_rows_some (st : Statement) (t : Table) (r : Row)
    (hst : st.row_to_insert = some r) (h : t.num_rows < TABLE_MAX_ROWS) :
    (execute_insert st t).1 = ExecuteResult.Success ∧
    (execute_insert st t).2.num_rows = t.num_rows + 1 := by
  rw [execute_insert_some st t r hst h]
  exact ⟨rfl, rfl⟩

theorem insertAll_counts (rows : List Row) (t : Table)
    (h : t.num_rows + rows.length ≤ TABLE_MAX_ROWS) :
    (∀ res ∈ (insertAll rows t).1, res = ExecuteResult.Success) ∧
    (insertAll rows t).2.num_rows = t.num_rows + rows.length := by
  induction rows generalizing t with
  | nil =>
    simp only [insertAll, Nat.add_zero]
    exact ⟨fun res hres => absurd hres (List.not_mem_nil res), rfl⟩
  | cons r rest ih =>
    have hn : t.num_rows < TABLE_MAX_ROWS := by
      simp only [List.length_cons] at h
      omega
    have step := execute_insert_some
      { typ := StatementType.Insert, row_to_insert := some r } t r rfl hn
    simp only [insertAll, step]
    obtain ⟨ih1, ih2⟩ := ih { t.write_slot t.num_rows r.serialize with num_rows := t.num_rows + 1 }
      (by
        show t.num_rows + 1 + rest.length ≤ TABLE_MAX_ROWS
        simp only [List.length_cons] at h
        omega)
    refine ⟨?_, ?_⟩
    · intro res hres
      simp only [List.mem_cons] at hres
      rcases hres with h | h
      · exact h
      · exact ih1 res h
    · rw [ih2]
      simp only [List.length_cons]
      omega

/-! Select loop lemmas -/

theorem selectRows_no_alloc (t : Table) (n : Nat)
    (h : ∀ i, i < n → (pageAt t (rowPageNum i)).isSome) :
    selectRows t n =
      (t, (List.range n).map (fun i => Row.deserialize (slotBytes t i))) := by
  induction n with
  | zero => rfl
  | succ n ih =>
    have ih' := ih (fun i hi => h i (by omega))
    simp only [selectRows, ih']
    unfold Table.row_slot
    rw [allocPage_of_isSome t _ (h n (by omega))]
    rw [List.range_succ, List.map_append]
    rfl

theorem selectRows_num_rows (t : Table) (n : Nat) :
    (selectRows t n).1.num_rows = t.num_rows := by
  induction n with
  | zero => rfl
  | succ n ih =>
    simp only [selectRows]
    show ((selectRows t n).1.allocPage (rowPageNum n)).num_rows = t.num_rows
    rw [allocPage_num_rows, ih]

/-! Reachability invariant -/

/-- The part of the storage invariant maintained by every reachable state:
page-array length, the row-count ceiling, and allocation of every page that
holds a row below `num_rows`. -/
def tableInv (t : Table) : Prop :=
  t.pages.length = TABLE_MAX_PAGES ∧
  t.num_rows ≤ TABLE_MAX_ROWS ∧
  ∀ i, i < t.num_rows → (pageAt t (rowPageNum i)).isSome

theorem tableInv_new : tableInv Table.new := by
  refine ⟨by simp [Table.new], by simp [Table.new], ?_⟩
  intro i hi
  exact absurd hi (by simp [Table.new])

theorem tableInv_insert (st : Statement) (t : Table) (h : tableInv t) :
    tableInv (execute_insert st t).2 := by
  obtain ⟨hpag, hle, halloc⟩ := h
  rcases Nat.lt_or_ge t.num_rows TABLE_MAX_ROWS with hn | hn
  · cases hst : st.row_to_insert with
    | none => rw [execute_insert_none st t hst]; exact ⟨hpag, hle, halloc⟩
    | some r =>
      rw [execute_insert_some st t r hst hn]
      have hplt : rowPageNum t.num_rows < t.pages.length := by
        rw [hpag]
        exact rowPageNum_lt _ hn
      refine ⟨?_, ?_, ?_⟩
      · show (t.write_slot t.num_rows r.serialize).pages.length = TABLE_MAX_PAGES
        rw [write_slot_pages_length, hpag]
      · show t.num_rows + 1 ≤ TABLE_MAX_ROWS
        omega
      · intro i hi
        show (pageAt (t.write_slot t.num_rows r.serialize) (rowPageNum i)).isSome
        by_cases hip : rowPageNum i = rowPageNum t.num_rows
        · rw [hip, pageAt_write_slot_self t _ _ hplt]
          rfl
        · rw [pageAt_write_slot_ne t _ _ (fun he => hip he.symm)]
          have hi' : i < t.num_rows + 1 := hi
          have hlt : i < t.num_rows := by
            rcases Nat.lt_or_ge i t.num_rows with hlt | hge
            · exact hlt
            · exact absurd (by rw [show i = t.num_rows by omega]) hip
          exact halloc i hlt
  · rw [execute_insert_full st t hn]
    exact ⟨hpag, hle, halloc⟩

theorem execute_select_table (st : Statement) (t : Table)
    (h : ∀ i, i < t.num_rows → (pageAt t (rowPageNum i)).isSome) :
    (execute_select st t).2.1 = t := by
  unfold execute_select
  rw [selectRows_no_alloc t t.num_rows h]

theorem tableInv_step (st : Statement) (t : Table) (h : tableInv t) :
    tableInv (execute_statement st t).2.1 := by
  unfold execute_statement
  cases st.typ with
  | Insert => exact tableInv_insert st t h
  | Select =>
    show tableInv (execute_select st t).2.1
    rw [execute_select_table st t h.2.2]
    exact h

theorem reachable_tableInv (t : Table) (h : Reachable t) : tableInv t := by
  induction h with
  | init => exact tableInv_new
  | step st h ih => exact tableInv_step st _ ih

/-! Concrete sample values used by the witnesses -/

/-- A sample well-formed row. -/
def sampleRow : Row := Row.new 1 [97] [98]

/-- A table whose row counter sits exactly at the capacity ceiling. -/
def fullTable : Table :=
  { num_rows := TABLE_MAX_ROWS, pages := List.replicate TABLE_MAX_PAGES none }

/-- A select statement. -/
def selectStatement : Statement :=
  { typ := StatementType.Select, row_to_insert := none }

/-! Claims -/

/-- Claim C1: starting from a fresh table, any sequence of at most
`TABLE_MAX_ROWS` (1400) row inserts succeeds entirely and leaves `num_rows`
equal to the number of inserts; and whenever `num_rows` equals 1400, any
insert returns `TableFull` and leaves the table (row counter and every page
byte) completely unchanged. -/
theorem claim_C1 (rows : List Row) (hlen : rows.length ≤ TABLE_MAX_ROWS)
    (st : Statement) (t : Table) (ht : t.num_rows = TABLE_MAX_ROWS) :
    (∀ res ∈ (insertAll rows Table.new).1, res = ExecuteResult.Success) ∧
    (insertAll rows Table.new).2.num_rows = rows.length ∧
    execute_insert st t = (ExecuteResult.TableFull, t) := by
  obtain ⟨h1, h2⟩ := insertAll_counts rows Table.new (by simpa [Table.new] using hlen)
  exact ⟨h1, by simpa [Table.new] using h2, execute_insert_full st t (by omega)⟩

theorem claim_C1_witness :
    ([] : List Row).length ≤ TABLE_MAX_ROWS ∧
    fullTable.num_rows = TABLE_MAX_ROWS ∧
    ((∀ res ∈ (insertAll [] Table.new).1, res = ExecuteResult.Success) ∧
      (insertAll [] Table.new).2.num_rows = ([] : List Row).length ∧
      execute_insert { typ := StatementType.Insert, row_to_insert := some sampleRow }
        fullTable = (ExecuteResult.TableFull, fullTable)) :=
  ⟨by decide, rfl,
    claim_C1 [] (by decide)
      { typ := StatementType.Insert, row_to_insert := some sampleRow } fullTable rfl⟩

/-- Claim C2: for any record built from a username of at most 32 bytes and an
email of at most 255 bytes (and a 32-bit id), deserialising its serialisation
yields the record back exactly, byte for byte including zero padding. -/
theorem claim_C2 (id : Nat) (username email : List Nat)
    (hid : id < 4294967296)
    (_hu : username.length ≤ COLUMN_USERNAME_SIZE)
    (_he : email.length ≤ COLUMN_EMAIL_SIZE) :
    Row.deserialize (Row.new id username email).serialize = Row.new id username email :=
  deserialize_serialize _ ⟨hid, fillBytes_length _ _, fillBytes_length _ _⟩

theorem claim_C2_witness :
    7 < 4294967296 ∧
    ([104] : List Nat).length ≤ COLUMN_USERNAME_SIZE ∧
    ([105] : List Nat).length ≤ COLUMN_EMAIL_SIZE ∧
    Row.deserialize (Row.new 7 [104] [105]).serialize = Row.new 7 [104] [105] :=
  ⟨by decide, by decide, by decide,
    claim_C2 7 [104] [105] (by decide) (by decide) (by decide)⟩

/-- Claim C3: the slot addressing of `Table::row_slot` computes page index
`row_index / 14` and byte offset `(row_index % 14) * 291`, and the byte ranges
of two distinct row indices never overlap: on different pages they live in
different buffers, and on the same page their offset ranges are disjoint. -/
theorem claim_C3 (r1 r2 : Nat) (hne : r1 ≠ r2) :
    rowPageNum r1 = r1 / 14 ∧
    rowPageOffset r1 = r1 % 14 * 291 ∧
    (rowPageNum r1 = rowPageNum r2 →
      rowPageOffset r1 + ROW_SIZE ≤ rowPageOffset r2 ∨
      rowPageOffset r2 + ROW_SIZE ≤ rowPageOffset r1) :=
  ⟨rfl, rfl, fun hp => slot_disjoint r1 r2 hne hp⟩

theorem claim_C3_witness :
    (0 : Nat) ≠ 1 ∧
    (rowPageNum 0 = 0 / 14 ∧
      rowPageOffset 0 = 0 % 14 * 291 ∧
      (rowPageNum 0 = rowPageNum 1 →
        rowPageOffset 0 + ROW_SIZE ≤ rowPageOffset 1 ∨
        rowPageOffset 1 + ROW_SIZE ≤ rowPageOffset 0)) :=
  ⟨by decide, claim_C3 0 1 (by decide)⟩

/-- A username string of 34 bytes whose byte 32 falls inside its final
three-byte UTF-8 character (31 ASCII letters followed by one three-byte
character): slicing it at byte 32, as `Row::new` does, is a Rust panic. -/
def badUsername : List (List Nat) := List.replicate 31 [97] ++ [[226, 130, 172]]

/-- A one-byte ASCII email string. -/
def sampleEmail : List (List Nat) := [[101]]

/-- Claim C4 (code bug): `badUsername` exceeds 32 bytes, yet `Row::new` does
not truncate it to its first 32 bytes — it panics (`none`), because it slices
the `&str` at byte index 32, which is not a character boundary. Truncation is
therefore not error-free for every over-long username. -/
theorem claim_C4 :
    COLUMN_USERNAME_SIZE < strByteLen badUsername ∧
    Row.newStr 1 badUsername sampleEmail = none := by
  constructor
  · decide
  · rfl

/-- Claim C5: on every reachable table state, select returns `Success` and
leaves the table — row counter, page allocation status and page contents —
exactly as it was. -/
theorem claim_C5 (st : Statement) (t : Table) (h : Reachable t) :
    (execute_select st t).1 = ExecuteResult.Success ∧
    (execute_select st t).2.1 = t :=
  ⟨rfl, execute_select_table st t (reachable_tableInv t h).2.2⟩

theorem claim_C5_witness :
    Reachable Table.new ∧
    (execute_select selectStatement Table.new).1 = ExecuteResult.Success ∧
    (execute_select selectStatement Table.new).2.1 = Table.new :=
  ⟨Reachable.init, claim_C5 selectStatement Table.new Reachable.init⟩

/-- Claim C6: after any sequence of successful inserts into a fresh table,
select yields exactly the inserted records, one per insert, in insertion
order. -/
theorem claim_C6 (rows : List Row) (hwf : ∀ r ∈ rows, wfRow r)
    (hlen : rows.length ≤ TABLE_MAX_ROWS) (st : Statement) :
    (execute_select st (insertAll rows Table.new).2).2.2 = rows := by
  obtain ⟨-, hrep⟩ :=
    insertAll_represents rows [] Table.new represents_new hwf (by simpa using hlen)
  rw [List.nil_append] at hrep
  obtain ⟨hnum, hpag, hWF, halloc, hslot⟩ := hrep
  show (selectRows (insertAll rows Table.new).2 (insertAll rows Table.new).2.num_rows).2 = rows
  rw [selectRows_no_alloc _ _ halloc]
  show (List.range (insertAll rows Table.new).2.num_rows).map
    (fun i => Row.deserialize (slotBytes (insertAll rows Table.new).2 i)) = rows
  rw [hnum]
  apply List.ext_getElem
  · simp
  · intro i h1 h2
    simp only [List.getElem_map, List.getElem_range]
    rw [hslot i (by simpa using h2)]
    exact deserialize_serialize _ (hwf _ (List.getElem_mem h2))

/-- The rows of the ordering scenario in the spec: ids 3, 1, 2 in that order. -/
def rows312 : List Row := [Row.new 3 [97] [120], Row.new 1 [98] [121], Row.new 2 [99] [122]]

theorem claim_C6_witness :
    (∀ r ∈ rows312, wfRow r) ∧
    rows312.length ≤ TABLE_MAX_ROWS ∧
    (execute_select selectStatement (insertAll rows312 Table.new).2).2.2 = rows312 :=
  ⟨by decide, by decide, claim_C6 rows312 (by decide) (by decide) selectStatement⟩

/-- Claim C7: on every reachable table state, running select twice in a row
(with no intervening inserts) yields the same sequence of records both
times. -/
theorem claim_C7 (st1 st2 : Statement) (t : Table) (h : Reachable t) :
    (execute_select st2 (execute_select st1 t).2.1).2.2 = (execute_select st1 t).2.2 := by
  rw [execute_select_table st1 t (reachable_tableInv t h).2.2]
  rfl

theorem claim_C7_witness :
    Reachable Table.new ∧
    (execute_select selectStatement (execute_select selectStatement Table.new).2.1).2.2
      = (execute_select selectStatement Table.new).2.2 :=
  ⟨Reachable.init, claim_C7 selectStatement selectStatement Table.new Reachable.init⟩

/-- Claim C8: the serialisation of every record is exactly 291 bytes: bytes
0..4 are the id in little-endian order, bytes 4..36 the username array, bytes
36..291 the email array. -/
theorem claim_C8 (r : Row)
    (hu : r.username.length = COLUMN_USERNAME_SIZE)
    (he : r.email.length = COLUMN_EMAIL_SIZE) :
    r.serialize.length = ROW_SIZE ∧
    r.serialize.take 4 = u32_le_bytes r.id ∧
    (r.serialize.drop 4).take 32 = r.username ∧
    r.serialize.drop 36 = r.email := by
  obtain ⟨id, u, e⟩ := r
  simp only [COLUMN_USERNAME_SIZE, COLUMN_EMAIL_SIZE] at hu he
  refine ⟨?_, ?_, ?_, ?_⟩
  · simp [Row.serialize, u32_le_bytes, ROW_SIZE, hu, he]
  · rfl
  · show (u ++ e).take 32 = u
    rw [List.take_append_of_le_length (by omega), List.take_of_length_le (by omega)]
  · show (u ++ e).drop 32 = e
    rw [List.drop_append_of_le_length (by omega),
      List.drop_eq_nil_of_le (by omega), List.nil_append]

theorem claim_C8_witness :
    sampleRow.username.length = COLUMN_USERNAME_SIZE ∧
    sampleRow.email.length = COLUMN_EMAIL_SIZE ∧
    (sampleRow.serialize.length = ROW_SIZE ∧
      sampleRow.serialize.take 4 = u32_le_bytes sampleRow.id ∧
      (sampleRow.serialize.drop 4).take 32 = sampleRow.username ∧
      sampleRow.serialize.drop 36 = sampleRow.email) :=
  ⟨by decide, by decide, claim_C8 sampleRow (by decide) (by decide)⟩

/-- Claim C9: every reachable table state has `num_rows ≤ 1400`, and no
operation (insert or select) ever decreases `num_rows`. -/
theorem claim_C9 :
    (∀ t, Reachable t → t.num_rows ≤ TABLE_MAX_ROWS) ∧
    (∀ st t, t.num_rows ≤ (execute_statement st t).2.1.num_rows) := by
  constructor
  · intro t h
    exact (reachable_tableInv t h).2.1
  · intro st t
    unfold execute_statement
    cases st.typ with
    | Insert =>
      show t.num_rows ≤ (execute_insert st t).2.num_rows
      rcases Nat.lt_or_ge t.num_rows TABLE_MAX_ROWS with hn | hn
      · cases hst : st.row_to_insert with
        | none =>
          rw [execute_insert_none st t hst]
        | some r =>
          rw [execute_insert_some st t r hst hn]
          show t.num_rows ≤ t.num_rows + 1
          omega
      · rw [execute_insert_full st t hn]
    | Select =>
      show t.num_rows ≤ (execute_select st t).2.1.num_rows
      rw [show (execute_select st t).2.1 = (selectRows t t.num_rows).1 from rfl,
        selectRows_num_rows]

theorem claim_C9_witness :
    Reachable Table.new ∧ Table.new.num_rows ≤ TABLE_MAX_ROWS :=
  ⟨Reachable.init, claim_C9.1 Table.new Reachable.init⟩

/-- Claim C10: executing an insert whose statement carries no row
(`row_to_insert = None`) on a table that is not full still returns `TableFull`
and leaves the table completely unchanged. -/
theorem claim_C10 (st : Statement) (t : Table)
    (hst : st.row_to_insert = none) (_hlt : t.num_rows < TABLE_MAX_ROWS) :
    execute_insert st t = (ExecuteResult.TableFull, t) :=
  execute_insert_none st t hst

theorem claim_C10_witness :
    ({ typ := StatementType.Insert, row_to_insert := none } : Statement).row_to_insert
      = none ∧
    Table.new.num_rows < TABLE_MAX_ROWS ∧
    execute_insert { typ := StatementType.Insert, row_to_insert := none } Table.new
      = (ExecuteResult.TableFull, Table.new) :=
  ⟨rfl, by decide,
    claim_C10 { typ := StatementType.Insert, row_to_insert := none } Table.new rfl (by decide)⟩

end VoidDB
